import Mathlib

/-!
Verification development for the log-crawling / record-extraction script
`subcommands.py` (single-file repository).  The definitions below are a
shallow embedding of the script's pure core: the brace-balanced JSON
scanner and record extractor of `process_log_file`, the two-tier
deduplication and persistence logic of `save_to_json`, and the
flag-guarded shallow recursion of `fetch_log_links`.  I/O collaborators
(HTTP fetch, directory listing, the on-disk file system) are modelled as
explicit function arguments and explicit state.
-/

/-! ## Characters used by the embedding

Named character constants for the few characters whose literals are
awkward inside string literals (quote, double quote, braces, newline). -/

def quoteChar : Char := Char.ofNat 39

def dquoteChar : Char := Char.ofNat 34

def lbrace : Char := Char.ofNat 123

def rbrace : Char := Char.ofNat 125

def nlChar : Char := Char.ofNat 10

def lbraceS : String := String.mk [lbrace]

def rbraceS : String := String.mk [rbrace]

def dquoteS : String := String.mk [dquoteChar]

/-! ## Python string primitives

Models of the Python `str` operations the script uses: `str.replace`
(left-to-right, non-overlapping), `str.strip()`, `str.find` / the `in`
substring test, and `str.rstrip`. -/

/-- Model of Python `str.replace` on character lists: scan left to right,
replacing each non-overlapping occurrence of `pat` by `rep`.  The fuel
argument only bounds recursion depth; every call consumes at least one
character, so `s.length + 1` is always sufficient.  (Python's behaviour
for an empty pattern is not needed here: the script only replaces
non-empty literals; an empty pattern returns the string unchanged in
this model.) -/
def pyReplace : Nat → List Char → List Char → List Char → List Char
  | 0, s, _, _ => s
  | _ + 1, s, [], _ => s
  | _ + 1, [], _, _ => []
  | fuel + 1, c :: rest, p :: ps, rep =>
    if List.isPrefixOf (p :: ps) (c :: rest) then
      rep ++ pyReplace fuel ((c :: rest).drop (p :: ps).length) (p :: ps) rep
    else
      c :: pyReplace fuel rest (p :: ps) rep

/-- `pyReplace` lifted to `String`. -/
def pyReplaceS (s pat rep : String) : String :=
  String.mk (pyReplace (s.data.length + 1) s.data pat.data rep.data)

/-- Split a character list at every occurrence of a separator character,
keeping empty pieces — the behaviour of Python `str.split(sep)` for a
one-character separator. -/
def splitOnCharGo (sep : Char) : List Char → List Char → List String
  | [], acc => [String.mk acc.reverse]
  | c :: rest, acc =>
    if c = sep then String.mk acc.reverse :: splitOnCharGo sep rest []
    else splitOnCharGo sep rest (c :: acc)

def splitOnChar (sep : Char) (s : String) : List String :=
  splitOnCharGo sep s.data []

/-- Split a character list at every character satisfying `p`, keeping
empty pieces (filtered by callers that model Python `str.split()`). -/
def splitPredGo (p : Char → Bool) : List Char → List Char → List String
  | [], acc => [String.mk acc.reverse]
  | c :: rest, acc =>
    if p c then String.mk acc.reverse :: splitPredGo p rest []
    else splitPredGo p rest (c :: acc)

def splitPred (p : Char → Bool) (s : String) : List String :=
  splitPredGo p s.data []

/-- Model of Python `str.startswith`. -/
def strStartsWith (s pre : String) : Bool :=
  List.isPrefixOf pre.data s.data

/-- Model of Python `str.endswith`. -/
def strEndsWith (s suffix : String) : Bool :=
  List.isPrefixOf suffix.data.reverse s.data.reverse

/-- Model of Python `str.strip()` (remove leading and trailing
whitespace). -/
def pyStrip (s : String) : String :=
  String.mk (((s.data.dropWhile Char.isWhitespace).reverse.dropWhile Char.isWhitespace).reverse)

/-- Model of Python `str.find`: index of the leftmost occurrence of
`needle`, or `none` where Python returns `-1`. -/
def findSub (needle : List Char) : List Char → Option Nat
  | [] => if needle = [] then some 0 else none
  | c :: rest =>
    if List.isPrefixOf needle (c :: rest) then some 0
    else (findSub needle rest).map (· + 1)

/-- Model of Python's `needle in hay` substring test. -/
def isSubstring (needle hay : List Char) : Bool :=
  (findSub needle hay).isSome

/-- Model of Python `str.rstrip` with a single-character strip set. -/
def rstripChar (ch : Char) (cs : List Char) : List Char :=
  (cs.reverse.dropWhile (· = ch)).reverse

/-! ## JSON values

The JSON data model shared by the extractor (`json.loads`) and the
persistence engine (`json.dumps(output, sort_keys=True)`). -/

inductive JVal : Type where
  | jnull : JVal
  | jbool : Bool → JVal
  | jnum : Int → JVal
  | jstr : String → JVal
  | jarr : List JVal → JVal
  | jobj : List (String × JVal) → JVal

/-- Python truthiness (`if json_output:`) of a parsed JSON value:
`None`, `False`, `0`, `""`, `[]` and the empty object are falsy. -/
def pythonTruthy : JVal → Bool
  | .jnull => false
  | .jbool b => b
  | .jnum n => n != 0
  | .jstr s => s != ""
  | .jarr l => !l.isEmpty
  | .jobj l => !l.isEmpty

/-- First-match update of an association list keyed by strings: replace
the value at the first occurrence of the key, or append a fresh pair.
This is the Python `dict` update used both by the parser (duplicate keys:
last value wins, original position kept) and by the modelled file
system. -/
def assocSet {β : Type} : List (String × β) → String → β → List (String × β)
  | [], k, v => [(k, v)]
  | (k', v') :: rest, k, v =>
    if k' = k then (k, v) :: rest else (k', v') :: assocSet rest k v

/-- First-match lookup in an association list keyed by strings. -/
def dictGet {β : Type} : List (String × β) → String → Option β
  | [], _ => none
  | (k', v) :: rest, k => if k' = k then some v else dictGet rest k

/-! ## Canonical serialization (`json.dumps(output, sort_keys=True)`)

Model of the Python call used to compute the dedup hash key.  The
SHA-256 digest itself is modelled as the canonical serialization string
(an injective digest), so hash equality is canonical-serialization
equality, which is exactly the dedup key the spec describes. -/

/-- Insert a key/value pair into a key-sorted entry list (stable
insertion, ascending keys) — model of Python's stable `sort_keys`. -/
def insertByKey (p : String × JVal) : List (String × JVal) → List (String × JVal)
  | [] => [p]
  | q :: rest => if p.1 ≤ q.1 then p :: q :: rest else q :: insertByKey p rest

/-- Sort object entries by key (stable insertion sort). -/
def sortByKey (l : List (String × JVal)) : List (String × JVal) :=
  l.foldr insertByKey []

mutual

/-- Recursively sort every object's entries by key. -/
def sortKeys : JVal → JVal
  | .jnull => .jnull
  | .jbool b => .jbool b
  | .jnum n => .jnum n
  | .jstr s => .jstr s
  | .jarr l => .jarr (sortKeysList l)
  | .jobj l => .jobj (sortByKey (sortKeysEntries l))

def sortKeysList : List JVal → List JVal
  | [] => []
  | v :: vs => sortKeys v :: sortKeysList vs

def sortKeysEntries : List (String × JVal) → List (String × JVal)
  | [] => []
  | (k, v) :: rest => (k, sortKeys v) :: sortKeysEntries rest

end

/-- Escape a string for JSON output (double quote and backslash; the
script's data does not exercise further escapes). -/
def escapeJson (s : String) : String :=
  String.mk (s.data.foldr
    (fun c acc => if c = dquoteChar ∨ c = Char.ofNat 92 then Char.ofNat 92 :: c :: acc else c :: acc)
    [])

mutual

/-- Serializer with Python `json.dumps` default separators
(`", "` and `": "`). -/
def dumps : JVal → String
  | .jnull => "null"
  | .jbool b => cond b "true" "false"
  | .jnum n => toString n
  | .jstr s => dquoteS ++ escapeJson s ++ dquoteS
  | .jarr l => "[" ++ String.intercalate ", " (dumpsList l) ++ "]"
  | .jobj l => lbraceS ++ String.intercalate ", " (dumpsEntries l) ++ rbraceS

def dumpsList : List JVal → List String
  | [] => []
  | v :: vs => dumps v :: dumpsList vs

def dumpsEntries : List (String × JVal) → List String
  | [] => []
  | (k, v) :: rest => (dquoteS ++ escapeJson k ++ dquoteS ++ ": " ++ dumps v) :: dumpsEntries rest

end

/-- Model of `json.dumps(output, sort_keys=True)`: serialize with all
object keys sorted.  Used as the content of the SHA-256 dedup digest;
the digest is modelled as this canonical string itself. -/
def dumpsSorted (v : JVal) : String :=
  dumps (sortKeys v)

/-! ## `json.loads` model

Recursive-descent parser for the JSON fragment the script's logs
exercise (objects, arrays, strings without escape sequences, integer
numbers, `true`/`false`/`null`), with Python `dict` semantics for
duplicate keys and a trailing-garbage check (Python's "Extra data"
error).  Floats and string escapes are outside the modelled fragment:
on them this model fails where Python may succeed; no claim depends on
such inputs. -/

def skipWs (cs : List Char) : List Char :=
  cs.dropWhile Char.isWhitespace

/-- Parse the body of a JSON string after the opening double quote
(no escape handling). -/
def parseStrBody : List Char → List Char → Option (String × List Char)
  | [], _ => none
  | c :: rest, acc =>
    if c = dquoteChar then some (String.mk acc.reverse, rest)
    else parseStrBody rest (c :: acc)

/-- Decimal digits to a natural number. -/
def digitsVal (cs : List Char) : Nat :=
  cs.foldl (fun acc c => acc * 10 + (c.toNat - 48)) 0

/-- Parse a non-empty digit run. -/
def parseNatNum (cs : List Char) : Option (Nat × List Char) :=
  let digits := cs.takeWhile Char.isDigit
  if digits.isEmpty then none
  else some (digitsVal digits, cs.dropWhile Char.isDigit)

/-- Parse an (optionally negated) integer literal. -/
def parseNum (cs : List Char) : Option (JVal × List Char) :=
  match cs with
  | '-' :: rest => (parseNatNum rest).map (fun p => (.jnum (-(p.1 : Int)), p.2))
  | _ => (parseNatNum cs).map (fun p => (.jnum (p.1 : Int), p.2))

mutual

def parseValue : Nat → List Char → Option (JVal × List Char)
  | 0, _ => none
  | fuel + 1, cs =>
    match skipWs cs with
    | 'n' :: 'u' :: 'l' :: 'l' :: rest => some (.jnull, rest)
    | 't' :: 'r' :: 'u' :: 'e' :: rest => some (.jbool true, rest)
    | 'f' :: 'a' :: 'l' :: 's' :: 'e' :: rest => some (.jbool false, rest)
    | c :: rest =>
      if c = dquoteChar then (parseStrBody rest []).map (fun p => (.jstr p.1, p.2))
      else if c = lbrace then parseObj fuel (skipWs rest) []
      else if c = '[' then parseArr fuel (skipWs rest) []
      else if c = '-' ∨ c.isDigit then parseNum (c :: rest)
      else none
    | [] => none

/-- Parse object members; `cs` starts at the first member (or closing
brace), whitespace already skipped. -/
def parseObj : Nat → List Char → List (String × JVal) → Option (JVal × List Char)
  | 0, _, _ => none
  | fuel + 1, cs, acc =>
    match cs with
    | [] => none
    | c :: rest =>
      if c = rbrace then some (.jobj acc, rest)
      else if c = dquoteChar then
        match parseStrBody rest [] with
        | none => none
        | some (k, r1) =>
          match skipWs r1 with
          | ':' :: r2 =>
            match parseValue fuel r2 with
            | none => none
            | some (v, r3) =>
              match skipWs r3 with
              | ',' :: r4 => parseObj fuel (skipWs r4) (assocSet acc k v)
              | c2 :: r4 => if c2 = rbrace then some (.jobj (assocSet acc k v), r4) else none
              | [] => none
          | _ => none
      else none

/-- Parse array elements; `cs` starts at the first element (or closing
bracket), whitespace already skipped. -/
def parseArr : Nat → List Char → List JVal → Option (JVal × List Char)
  | 0, _, _ => none
  | fuel + 1, cs, acc =>
    match cs with
    | [] => none
    | c :: rest =>
      if c = ']' then some (.jarr acc, rest)
      else
        match parseValue fuel cs with
        | none => none
        | some (v, r1) =>
          match skipWs r1 with
          | ',' :: r2 => parseArr fuel (skipWs r2) (acc ++ [v])
          | c2 :: r2 => if c2 = ']' then some (.jarr (acc ++ [v]), r2) else none
          | [] => none

end

/-- Model of Python `json.loads`: parse one JSON value and require that
only whitespace follows; any failure is `none` (Python's
`JSONDecodeError`). -/
def json_loads (s : String) : Option JVal :=
  match parseValue (2 * s.length + 4) s.data with
  | some (v, rest) => if skipWs rest = [] then some v else none
  | none => none

/-! ## Record extractor (`process_log_file`)

Shallow embedding of the pure core of `process_log_file`: the input is
the list of lines of the fetched log (as produced by `readlines()`), the
run-scoped processed-command set `pc` is threaded explicitly, and an
uncaught Python exception is an `Except.error` (the script's
`try`/`except` catches only `requests.RequestException`, which the local
parsing code never raises). -/

/-- Error text of Python's out-of-range list indexing. -/
def indexErrMsg : String := "IndexError: list index out of range"

/-- Error text of Python's `list.pop()` on an empty list. -/
def popErrMsg : String := "IndexError: pop from empty list"

/-- The command-marker substring searched for in each line. -/
def markerStr : String := "cephadm shell -- radosgw-admin"

/-- Embedding of lines 186-187: `version_line = lines[i + 2].strip()`
followed by `".".join(version_line.split()[5].split(".")[6:9])`.
Python `split()` splits on whitespace runs discarding empties; the
`[6:9]` slice is lenient, only the `[5]` index can raise. -/
def version_from (lines : List String) (i : Nat) : Except String String :=
  match lines.get? (i + 2) with
  | none => .error indexErrMsg
  | some l =>
    let version_line := pyStrip l
    let toks := (splitPred Char.isWhitespace version_line).filter (fun t => t ≠ "")
    match toks.get? 5 with
    | none => .error indexErrMsg
    | some tok => .ok (String.intercalate "." (((splitOnChar '.' tok).drop 6).take 3))

/-- Embedding of lines 190-191: `index = lines[i].find('radosgw-admin')`
then `command = lines[i][index:].rstrip("\n")`.  The `none` branch
mirrors Python's slice `[-1:]` for `find = -1`; it is unreachable when
the line contains the marker. -/
def command_of (line : String) : String :=
  match findSub "radosgw-admin".data line.data with
  | some idx => String.mk (rstripChar nlChar (line.data.drop idx))
  | none => String.mk (rstripChar nlChar (line.data.drop (line.data.length - 1)))

/-- Embedding of the per-character loop at lines 203-213.  State:
remaining characters of the current line, the brace `stack`, and the
accumulated `json_content`.  Returns the new stack and content plus a
flag recording whether the inner `break` fired; a `}` with an empty
stack is Python's `stack.pop()` `IndexError`. -/
def scan_line : List Char → List Char → String → Except String (List Char × String × Bool)
  | [], stack, content => .ok (stack, content, false)
  | c :: cs, stack, content =>
    let stack1 := if c = lbrace then lbrace :: stack else stack
    let content1 := if !stack1.isEmpty then content.push c else content
    if c = rbrace then
      match stack1 with
      | [] => .error popErrMsg
      | _ :: rest =>
        if rest.isEmpty then .ok (rest, content1, true)
        else scan_line cs rest content1
    else scan_line cs stack1 content1

/-- Embedding of the line loop at lines 202-215 (`for j in range(i + 1,
len(lines))` with the trailing `if not stack and json_content: break`).
Returns the captured `json_content` (possibly empty when no brace was
found). -/
def scan_lines : List String → List Char → String → Except String String
  | [], _, content => .ok content
  | l :: ls, stack, content =>
    match scan_line l.data stack content with
    | .error e => .error e
    | .ok (stack', content', broke) =>
      if broke then .ok content'
      else if stack'.isEmpty ∧ content' ≠ "" then .ok content'
      else scan_lines ls stack' content'

/-- Embedding of lines 219-224: normalize the captured candidate —
replace single quotes by double quotes, `True`/`False` by
`true`/`false`, then strip surrounding whitespace. -/
def clean (json_content : String) : String :=
  pyStrip
    (pyReplaceS (pyReplaceS (pyReplaceS json_content (String.mk [quoteChar]) dquoteS)
        "True" "true")
      "False" "false")

/-- One extracted record as passed to `save_to_json`. -/
structure RawRecord : Type where
  command : String
  output : JVal
  ceph_version : String

/-- The body of one marker iteration (lines 185-234): extract the
version (may raise), the command, honour the processed-command skip,
scan for a brace-balanced candidate (may raise), normalize, parse, and
on a truthy parse emit the record and add the command to `pc`. -/
def marker_step (lines : List String) (i : Nat) (pc : List String) :
    Except String (Option RawRecord × List String) :=
  match version_from lines i with
  | .error e => .error e
  | .ok v =>
    let command := command_of (lines.getD i "")
    if command ∈ pc then .ok (none, pc)
    else
      match scan_lines (lines.drop (i + 1)) [] "" with
      | .error e => .error e
      | .ok json_content =>
        if json_content ≠ "" then
          match json_loads (clean json_content) with
          | some out =>
            if pythonTruthy out then .ok (some ⟨command, out, v⟩, pc ++ [command])
            else .ok (none, pc)
          | none => .ok (none, pc)
        else .ok (none, pc)

/-- The marker loop of lines 183-234: visit every line index, run
`marker_step` on lines containing the marker, collect emitted records in
order and thread `pc`.  The fuel argument only bounds recursion depth;
`lines.length` steps always reach the end of the file. -/
def extract_go (lines : List String) : Nat → Nat → List String → List RawRecord →
    Except String (List RawRecord × List String)
  | 0, _, pc, acc => .ok (acc, pc)
  | fuel + 1, i, pc, acc =>
    match lines.get? i with
    | none => .ok (acc, pc)
    | some line =>
      if isSubstring markerStr.data line.data then
        match marker_step lines i pc with
        | .error e => .error e
        | .ok (some r, pc') => extract_go lines fuel (i + 1) pc' (acc ++ [r])
        | .ok (none, pc') => extract_go lines fuel (i + 1) pc' acc
      else extract_go lines fuel (i + 1) pc acc

/-- All records extracted from one log's lines, with the final
processed-command set. -/
def extract_records (lines : List String) (pc : List String) :
    Except String (List RawRecord × List String) :=
  extract_go lines lines.length 0 pc []

/-- File-system effect tracked by `process_log_file`: whether the
temporary local copy `temp_file.log` currently exists. -/
structure FS : Type where
  tempExists : Bool

/-- Embedding of `process_log_file` after a successful fetch: the log
content is written to the temporary file (lines 171-172), the lines are
processed, and `os.remove` (line 236) runs only when no exception was
raised — an extraction exception propagates before the removal (the
`except` clause at line 238 catches only `requests.RequestException`). -/
def process_log_file (lines : List String) (pc : List String) :
    FS × Except String (List RawRecord × List String) :=
  match extract_records lines pc with
  | .error e => (⟨true⟩, .error e)
  | .ok r => (⟨false⟩, .ok r)

/-! ## Deduplication & persistence engine (`save_to_json`)

The on-disk state is modelled explicitly: `files` maps a destination
file name to its parsed `OutputsDocument`, and `global_output_hashes` is
the run-scoped global dedup set.  Uncaught Python exceptions (the
hard-coded URL-segment indexing at lines 107-110) are `Except.error`. -/

/-- One element of a document's `outputs` array. -/
structure Entry : Type where
  command : String
  output : JVal
  output_hash : String

/-- A persisted `<subcommand>_outputs.json` document. -/
structure Doc : Type where
  ceph_version : String
  outputs : List Entry

/-- The mutable state touched by `save_to_json`: the destination files
and the global hash set. -/
structure SaveState : Type where
  files : List (String × Doc)
  global_output_hashes : List String

/-- Observable outcome of one `save_to_json` call (the script reports
each by a `print`). -/
inductive SaveResult : Type where
  | written : String → String → SaveResult
  | skippedGlobal : String → SaveResult
  | skippedFile : String → String → SaveResult
  | noMatch : SaveResult

/-- Embedding of lines 107-110: `complete_url.split("/")` indexed at
`[7]`, `[8]`, `[10]`; any missing segment is Python's `IndexError`. -/
def version_dirs (complete_url : String) : Option (String × String × String) :=
  let url_parts := splitOnChar '/' complete_url
  match url_parts.get? 7, url_parts.get? 8, url_parts.get? 10 with
  | some openstack_version, some rhel_version, some ceph_version_full =>
    some (openstack_version, rhel_version, ceph_version_full)
  | _, _, _ => none

/-- Whether a character matches the regex class `\w` (the commands in
these logs are ASCII). -/
def isWordChar (c : Char) : Bool :=
  c.isAlphanum || c = '_'

/-- Try the regex `radosgw-admin (\w+)` at the head of `cs`. -/
def matchSubcommandAt (cs : List Char) : Option String :=
  if List.isPrefixOf "radosgw-admin ".data cs then
    let w := (cs.drop "radosgw-admin ".data.length).takeWhile isWordChar
    if w.isEmpty then none else some (String.mk w)
  else none

/-- Scan for the leftmost position where `matchSubcommandAt`
succeeds. -/
def re_search_go : List Char → Option String
  | [] => none
  | c :: rest =>
    match matchSubcommandAt (c :: rest) with
    | some s => some s
    | none => re_search_go rest

/-- Embedding of line 121: `re.search(r'radosgw-admin (\w+)', command)`,
leftmost match, returning the captured word. -/
def re_search_radosgw (command : String) : Option String :=
  re_search_go command.data

/-- Destination file path (lines 113-124):
`Suriya/<openstack>/<rhel>/<cephfull>/<subcommand>_outputs.json`. -/
def file_name_of (openstack_version rhel_version ceph_version_full subcommand : String) : String :=
  "Suriya/" ++ openstack_version ++ "/" ++ rhel_version ++ "/" ++ ceph_version_full ++ "/" ++
    subcommand ++ "_outputs.json"

/-- Embedding of `save_to_json` (lines 98-160).  The `ceph_version`
argument mirrors the Python parameter, which the function never uses
(the stored version is the one derived from the URL).  Steps: derive the
version hierarchy from `complete_url` (may raise `IndexError`), match
the subcommand (no match: record silently dropped), load or initialize
the destination document, compute the output hash, then the two dedup
checks — global first (skip, state untouched), then per-file (skip,
state untouched), else append, write the document and add the hash to
the global set. -/
def save_to_json (complete_url command : String) (output : JVal) (ceph_version : String)
    (s : SaveState) : Except String (SaveState × SaveResult) :=
  match version_dirs complete_url with
  | none => .error indexErrMsg
  | some (openstack_version, rhel_version, ceph_version_full) =>
    match re_search_radosgw command with
    | none => .ok (s, .noMatch)
    | some subcommand =>
      let file_name := file_name_of openstack_version rhel_version ceph_version_full subcommand
      let data : Doc :=
        match dictGet s.files file_name with
        | some d => d
        | none => ⟨ceph_version_full, []⟩
      let output_hash := dumpsSorted output
      if output_hash ∈ s.global_output_hashes then
        .ok (s, .skippedGlobal output_hash)
      else if data.outputs.all (fun entry => entry.output_hash != output_hash) then
        let data' : Doc := ⟨data.ceph_version, data.outputs ++ [⟨command, output, output_hash⟩]⟩
        .ok (⟨assocSet s.files file_name data', output_hash :: s.global_output_hashes⟩,
          .written file_name output_hash)
      else
        .ok (s, .skippedFile file_name output_hash)

/-- One record handed to `save_to_json` during a run. -/
abbrev Call : Type := String × JVal × String

/-- A whole run of `save_to_json` calls over one `complete_url`: fold
the calls through the state, recording each call's result; an uncaught
exception aborts the run with the state reached so far (no further
writes). -/
def runSave (complete_url : String) (s : SaveState) : List Call → SaveState × List SaveResult
  | [] => (s, [])
  | (command, output, ceph_version) :: rest =>
    match save_to_json complete_url command output ceph_version s with
    | .error _ => (s, [])
    | .ok (s', r) =>
      let p := runSave complete_url s' rest
      (p.1, r :: p.2)

/-- The hashes of the entries actually written (appended) during a run,
in order. -/
def writtenHashes : List SaveResult → List String
  | [] => []
  | .written _ h :: rest => h :: writtenHashes rest
  | _ :: rest => writtenHashes rest

/-- The outputs array of the document at a given file name (empty when
the file does not exist). -/
def docOutputs (s : SaveState) (file_name : String) : List Entry :=
  match dictGet s.files file_name with
  | some d => d.outputs
  | none => []

/-- Number of entries carrying a given hash in an outputs array. -/
def countHash (es : List Entry) (h : String) : Nat :=
  (es.filter (fun e => e.output_hash = h)).length

/-- Per-document uniqueness of `output_hash` values, over every document
in the state. -/
def docsUnique (s : SaveState) : Prop :=
  ∀ p ∈ s.files, ((p.2.outputs.map Entry.output_hash)).Nodup

/-! ## Link collector (`fetch_log_links`)

The directory-listing collaborator is a function from a location to its
listed hrefs.  The Python function's `allow` flag permits exactly one
further level of recursion: the `allow=True` entry point recurses into
directory entries with `allow=False`, and the `allow=False` instance
(`fetch_log_links_norec`) records log links only, never recursing.  The
dictionary `log_links_dict` is threaded explicitly. -/

/-- `log_links_dict`: location → list of absolute log links found
there (each Python `{"opt_in": url}` element is its url). -/
abbrev LogDict : Type := List (String × List String)

/-- Model of `urllib.parse.urljoin` for the shapes this crawler meets:
an absolute href is kept, a relative one is appended to the base
location (which always ends in a slash in these listings). -/
def urljoin (url href : String) : String :=
  if strStartsWith href "http://" ∨ strStartsWith href "https://" then href else url ++ href

/-- Lines 67-68: create the dictionary entry for `url` when absent. -/
def ensure_key (d : LogDict) (url : String) : LogDict :=
  match dictGet d url with
  | some _ => d
  | none => assocSet d url []

/-- Lines 85-87: record a log link under `url` unless already present
(the `any(log["opt_in"] == absolute_url ...)` idempotence check). -/
def record_log (d : LogDict) (url absolute_url : String) : LogDict :=
  let cur := (dictGet d url).getD []
  if absolute_url ∈ cur then d else assocSet d url (cur ++ [absolute_url])

/-- `fetch_log_links` with `allow=False`: hrefs ending in `.log` are
recorded; directory entries are *not* recursed into (line 90's
`and allow` fails). -/
def fetch_log_links_norec (listing : String → List String) (url : String) (d : LogDict) :
    LogDict :=
  (listing url).foldl
    (fun d href =>
      if strEndsWith href ".log" then record_log d url (urljoin url href)
      else d)
    (ensure_key d url)

/-- `fetch_log_links` with `allow=True` (the entry point used by
`process_all_log_files`): log hrefs are recorded, and each directory
href is recursed into once with `allow=False`. -/
def fetch_log_links (listing : String → List String) (url : String) (d : LogDict) : LogDict :=
  (listing url).foldl
    (fun d href =>
      if strEndsWith href ".log" then record_log d url (urljoin url href)
      else if strEndsWith href "/" then fetch_log_links_norec listing (urljoin url href) d
      else d)
    (ensure_key d url)

/-- Every log link collected in the dictionary. -/
def allLogs (d : LogDict) : List String :=
  d.foldr (fun p acc => p.2 ++ acc) []

/-! ## Helper lemmas about the modelled file system -/

theorem dictGet_assocSet_self {β : Type} (d : List (String × β)) (k : String) (v : β) :
    dictGet (assocSet d k v) k = some v := by
  induction d with
  | nil => simp [assocSet, dictGet]
  | cons p rest ih =>
    obtain ⟨k', v'⟩ := p
    by_cases h : k' = k
    · simp [assocSet, dictGet, h]
    · simp [assocSet, dictGet, h, ih]

theorem dictGet_assocSet_ne {β : Type} (d : List (String × β)) (k k' : String) (v : β)
    (hne : k' ≠ k) : dictGet (assocSet d k v) k' = dictGet d k' := by
  induction d with
  | nil => simp [assocSet, dictGet, Ne.symm hne]
  | cons p rest ih =>
    obtain ⟨k0, v0⟩ := p
    by_cases h0 : k0 = k
    · subst h0
      simp [assocSet, dictGet, Ne.symm hne]
    · by_cases h1 : k0 = k'
      · simp [assocSet, dictGet, h0, h1, hne]
      · simp [assocSet, dictGet, h0, h1, ih]

theorem mem_assocSet {β : Type} {d : List (String × β)} {k : String} {v : β} {p : String × β}
    (hp : p ∈ assocSet d k v) : p = (k, v) ∨ p ∈ d := by
  induction d with
  | nil => simpa [assocSet] using hp
  | cons q rest ih =>
    obtain ⟨k0, v0⟩ := q
    by_cases h0 : k0 = k
    · simp only [assocSet, if_pos h0, List.mem_cons] at hp
      rcases hp with hp | hp
      · exact Or.inl hp
      · exact Or.inr (List.mem_cons_of_mem _ hp)
    · simp only [assocSet, if_neg h0, List.mem_cons] at hp
      rcases hp with hp | hp
      · exact Or.inr (by simp [hp])
      · rcases ih hp with hp' | hp'
        · exact Or.inl hp'
        · exact Or.inr (List.mem_cons_of_mem _ hp')

theorem dictGet_mem {β : Type} {d : List (String × β)} {k : String} {v : β}
    (hget : dictGet d k = some v) : (k, v) ∈ d := by
  induction d with
  | nil => simp [dictGet] at hget
  | cons q rest ih =>
    obtain ⟨k0, v0⟩ := q
    by_cases h0 : k0 = k
    · subst h0
      have hv : v0 = v := by simpa [dictGet] using hget
      subst hv
      simp
    · simp only [dictGet, if_neg h0] at hget
      exact List.mem_cons_of_mem _ (ih hget)

theorem countHash_append (es fs : List Entry) (h : String) :
    countHash (es ++ fs) h = countHash es h + countHash fs h := by
  simp [countHash, List.filter_append]

theorem countHash_zero_all_bne {es : List Entry} {h : String} (hc : countHash es h = 0) :
    es.all (fun e => e.output_hash != h) = true := by
  simp only [countHash, List.length_eq_zero, List.filter_eq_nil_iff] at hc
  simp only [List.all_eq_true, bne_iff_ne, ne_eq]
  intro e he
  have := hc e he
  simpa using this

theorem countHash_pos_not_all {es : List Entry} {h : String} (hc : 0 < countHash es h) :
    es.all (fun e => e.output_hash != h) = false := by
  rcases List.exists_mem_of_ne_nil _ (List.length_pos.mp hc) with ⟨e, he⟩
  have h1 := List.mem_filter.mp he
  simp only [decide_eq_true_eq] at h1
  refine List.all_eq_false.mpr ⟨e, h1.1, ?_⟩
  simp [h1.2]

/-! ## Lemmas about `save_to_json` -/

theorem countHash_zero_of_all {es : List Entry} {h : String}
    (hall : es.all (fun e => e.output_hash != h) = true) : countHash es h = 0 := by
  simp only [countHash, List.length_eq_zero, List.filter_eq_nil_iff]
  intro e he
  have := List.all_eq_true.mp hall e he
  simpa using this

theorem not_mem_map_hash_of_countHash_zero {es : List Entry} {h : String}
    (hc : countHash es h = 0) : h ∉ es.map Entry.output_hash := by
  intro hmem
  rcases List.mem_map.mp hmem with ⟨e, he, hh⟩
  have hall := countHash_zero_all_bne hc
  have := List.all_eq_true.mp hall e he
  simp [hh] at this

/-- Inversion of the `written` branch: the hash is the canonical
serialization of the output, it was in neither dedup structure before
the call, the global set gains exactly it, and the destination document
gains exactly the new entry. -/
theorem save_written_inv {cu cmd : String} {out : JVal} {cv : String} {s s' : SaveState}
    {f h : String}
    (heq : save_to_json cu cmd out cv s = .ok (s', .written f h)) :
    h = dumpsSorted out ∧ h ∉ s.global_output_hashes ∧
    s'.global_output_hashes = h :: s.global_output_hashes ∧
    countHash (docOutputs s f) h = 0 ∧
    ∃ cv0, s'.files = assocSet s.files f ⟨cv0, docOutputs s f ++ [⟨cmd, out, h⟩]⟩ := by
  unfold save_to_json at heq
  rcases hvd : version_dirs cu with _ | ⟨osv, rhel, cvf⟩ <;> rw [hvd] at heq
  · simp at heq
  rcases hm : re_search_radosgw cmd with _ | sub <;> rw [hm] at heq
  · simp at heq
  simp only [] at heq
  rcases hlook : dictGet s.files (file_name_of osv rhel cvf sub) with _ | d
  · rw [hlook] at heq
    simp only [] at heq
    split at heq
    · simp at heq
    split at heq
    case _ hall =>
      rw [Except.ok.injEq, Prod.mk.injEq] at heq
      obtain ⟨hs, hr⟩ := heq
      cases hr
      subst hs
      refine ⟨rfl, by assumption, rfl, ?_, cvf, ?_⟩
      · simp [docOutputs, hlook, countHash]
      · simp [docOutputs, hlook]
    · simp at heq
  · rw [hlook] at heq
    simp only [] at heq
    split at heq
    · simp at heq
    split at heq
    case _ hall =>
      rw [Except.ok.injEq, Prod.mk.injEq] at heq
      obtain ⟨hs, hr⟩ := heq
      cases hr
      subst hs
      refine ⟨rfl, by assumption, rfl, ?_, d.ceph_version, ?_⟩
      · have := countHash_zero_of_all hall
        simpa [docOutputs, hlook] using this
      · simp [docOutputs, hlook]
    · simp at heq

/-- Every non-`written` outcome leaves the state untouched: no file
write, and — notably — no addition to the global hash set even on the
skipped-file branch. -/
theorem save_not_written_state {cu cmd : String} {out : JVal} {cv : String} {s s' : SaveState}
    {r : SaveResult}
    (heq : save_to_json cu cmd out cv s = .ok (s', r))
    (hnw : ∀ f h, r ≠ .written f h) : s' = s := by
  unfold save_to_json at heq
  rcases hvd : version_dirs cu with _ | ⟨osv, rhel, cvf⟩ <;> rw [hvd] at heq
  · simp at heq
  rcases hm : re_search_radosgw cmd with _ | sub <;> rw [hm] at heq
  · rw [Except.ok.injEq, Prod.mk.injEq] at heq
    exact heq.1.symm
  simp only [] at heq
  split at heq
  · rw [Except.ok.injEq, Prod.mk.injEq] at heq
    exact heq.1.symm
  split at heq
  · rw [Except.ok.injEq, Prod.mk.injEq] at heq
    exact absurd heq.2.symm (hnw _ _)
  · rw [Except.ok.injEq, Prod.mk.injEq] at heq
    exact heq.1.symm

/-- The global hash set only grows. -/
theorem save_global_mono {cu cmd : String} {out : JVal} {cv : String} {s s' : SaveState}
    {r : SaveResult}
    (heq : save_to_json cu cmd out cv s = .ok (s', r)) :
    s.global_output_hashes ⊆ s'.global_output_hashes := by
  cases r with
  | written f h =>
    have hw := save_written_inv heq
    rw [hw.2.2.1]
    exact List.subset_cons_self _ _
  | skippedGlobal h =>
    rw [save_not_written_state heq (by intro f h'; simp)]
    exact List.Subset.refl _
  | skippedFile f h =>
    rw [save_not_written_state heq (by intro f' h'; simp)]
    exact List.Subset.refl _
  | noMatch =>
    rw [save_not_written_state heq (by intro f' h'; simp)]
    exact List.Subset.refl _

/-- `docOutputs` after a file write: the written document has the new
outputs array, every other document is unchanged. -/
theorem docOutputs_write_self (s : SaveState) (f : String) (d : Doc)
    (g : List String) :
    docOutputs ⟨assocSet s.files f d, g⟩ f = d.outputs := by
  simp [docOutputs, dictGet_assocSet_self]

theorem docOutputs_write_ne (s : SaveState) (f f' : String) (d : Doc)
    (g : List String) (hne : f' ≠ f) :
    docOutputs ⟨assocSet s.files f d, g⟩ f' = docOutputs s f' := by
  simp [docOutputs, dictGet_assocSet_ne _ _ _ _ hne]

/-- Per-document hash uniqueness is preserved by every successful
`save_to_json` call. -/
theorem save_docsUnique {cu cmd : String} {out : JVal} {cv : String} {s s' : SaveState}
    {r : SaveResult}
    (heq : save_to_json cu cmd out cv s = .ok (s', r))
    (hu : docsUnique s) : docsUnique s' := by
  cases r with
  | written f h =>
    have hw := save_written_inv heq
    obtain ⟨-, -, -, hcnt, cv0, hfiles⟩ := hw
    intro p hp
    rw [hfiles] at hp
    rcases mem_assocSet hp with hp' | hp'
    · subst hp'
      simp only [List.map_append, List.map_cons, List.map_nil]
      rw [List.nodup_append]
      refine ⟨?_, List.nodup_singleton _, ?_⟩
      · rcases hlook : dictGet s.files f with _ | d
        · simp [docOutputs, hlook]
        · have := hu _ (dictGet_mem hlook)
          simpa [docOutputs, hlook] using this
      · intro x hx
        simp only [List.mem_singleton]
        intro hxh
        subst hxh
        exact not_mem_map_hash_of_countHash_zero hcnt hx
    · exact hu _ hp'
  | skippedGlobal h =>
    rw [save_not_written_state heq (by intro f h'; simp)]; exact hu
  | skippedFile f h =>
    rw [save_not_written_state heq (by intro f' h'; simp)]; exact hu
  | noMatch =>
    rw [save_not_written_state heq (by intro f' h'; simp)]; exact hu

/-- Every hash stored in any document is recorded in the global hash
set (holds along any run that starts from an empty base directory,
since writes are the only way entries appear). -/
def hashesInGlobal (s : SaveState) : Prop :=
  ∀ p ∈ s.files, ∀ e ∈ p.2.outputs, e.output_hash ∈ s.global_output_hashes

/-- Cross-document global uniqueness: two distinct destination
documents never both contain an entry with the same hash. -/
def crossDocUnique (s : SaveState) : Prop :=
  ∀ f f', f ≠ f' → ∀ e ∈ docOutputs s f, ∀ e' ∈ docOutputs s f',
    e.output_hash ≠ e'.output_hash

theorem hashesInGlobal_docOutputs {s : SaveState} (hg : hashesInGlobal s) {f : String}
    {e : Entry} (he : e ∈ docOutputs s f) : e.output_hash ∈ s.global_output_hashes := by
  unfold docOutputs at he
  rcases hlook : dictGet s.files f with _ | d <;> rw [hlook] at he
  · simp at he
  · exact hg _ (dictGet_mem hlook) _ he

theorem save_hashesInGlobal {cu cmd : String} {out : JVal} {cv : String} {s s' : SaveState}
    {r : SaveResult}
    (heq : save_to_json cu cmd out cv s = .ok (s', r))
    (hg : hashesInGlobal s) : hashesInGlobal s' := by
  cases r with
  | written f h =>
    obtain ⟨-, -, hglob, hcnt, cv0, hfiles⟩ := save_written_inv heq
    intro p hp e he
    rw [hfiles] at hp
    rw [hglob]
    rcases mem_assocSet hp with hp' | hp'
    · subst hp'
      simp only [List.mem_append, List.mem_singleton] at he
      rcases he with he | he
      · exact List.mem_cons_of_mem _ (hashesInGlobal_docOutputs hg he)
      · subst he
        exact List.mem_cons_self _ _
    · exact List.mem_cons_of_mem _ (hg _ hp' _ he)
  | skippedGlobal h =>
    rw [save_not_written_state heq (by intro f h'; simp)]; exact hg
  | skippedFile f h =>
    rw [save_not_written_state heq (by intro f' h'; simp)]; exact hg
  | noMatch =>
    rw [save_not_written_state heq (by intro f' h'; simp)]; exact hg

theorem save_crossDocUnique {cu cmd : String} {out : JVal} {cv : String} {s s' : SaveState}
    {r : SaveResult}
    (heq : save_to_json cu cmd out cv s = .ok (s', r))
    (hg : hashesInGlobal s) (hx : crossDocUnique s) : crossDocUnique s' := by
  cases r with
  | written f h =>
    obtain ⟨-, hnotg, hglob, hcnt, cv0, hfiles⟩ := save_written_inv heq
    have hsplit : ∀ f0, docOutputs s' f0 =
        if f0 = f then docOutputs s f ++ [⟨cmd, out, h⟩] else docOutputs s f0 := by
      intro f0
      by_cases hf0 : f0 = f
      · subst hf0
        have : s' = ⟨assocSet s.files f0 ⟨cv0, docOutputs s f0 ++ [⟨cmd, out, h⟩]⟩,
            s'.global_output_hashes⟩ := by
          cases s'; simp_all
        rw [this, docOutputs_write_self]
        simp
      · have : s' = ⟨assocSet s.files f ⟨cv0, docOutputs s f ++ [⟨cmd, out, h⟩]⟩,
            s'.global_output_hashes⟩ := by
          cases s'; simp_all
        rw [this, docOutputs_write_ne _ _ _ _ _ hf0]
        simp [hf0]
    intro f1 f2 hne e1 he1 e2 he2
    rw [hsplit f1] at he1
    rw [hsplit f2] at he2
    by_cases h1 : f1 = f <;> by_cases h2 : f2 = f
    · exact absurd (h1.trans h2.symm) hne
    · rw [if_pos h1] at he1
      rw [if_neg h2] at he2
      simp only [List.mem_append, List.mem_singleton] at he1
      rcases he1 with he1 | he1
      · exact hx f f2 (h1 ▸ hne) e1 he1 e2 he2
      · subst he1
        simp only
        intro hcontra
        exact hnotg (hcontra ▸ hashesInGlobal_docOutputs hg he2)
    · rw [if_neg h1] at he1
      rw [if_pos h2] at he2
      simp only [List.mem_append, List.mem_singleton] at he2
      rcases he2 with he2 | he2
      · exact hx f1 f (h2 ▸ hne) e1 he1 e2 he2
      · subst he2
        simp only
        intro hcontra
        exact hnotg (hcontra ▸ hashesInGlobal_docOutputs hg he1)
    · rw [if_neg h1] at he1
      rw [if_neg h2] at he2
      exact hx f1 f2 hne e1 he1 e2 he2
  | skippedGlobal h =>
    rw [save_not_written_state heq (by intro f h'; simp)]; exact hx
  | skippedFile f h =>
    rw [save_not_written_state heq (by intro f' h'; simp)]; exact hx
  | noMatch =>
    rw [save_not_written_state heq (by intro f' h'; simp)]; exact hx

/-! ## Run-level invariants -/

theorem runSave_writes_fresh (cu : String) (calls : List Call) :
    ∀ s : SaveState,
      (writtenHashes (runSave cu s calls).2).Nodup ∧
      ∀ h ∈ writtenHashes (runSave cu s calls).2, h ∉ s.global_output_hashes := by
  induction calls with
  | nil => intro s; simp [runSave, writtenHashes]
  | cons c rest ih =>
    obtain ⟨cmd, out, cv⟩ := c
    intro s
    rcases hsv : save_to_json cu cmd out cv s with e | ⟨s', r⟩
    · simp [runSave, hsv, writtenHashes]
    · have hmono := save_global_mono hsv
      obtain ⟨ihn, ihf⟩ := ih s'
      cases r with
      | written f h =>
        obtain ⟨-, hnotg, hglob, -, -⟩ := save_written_inv hsv
        have htail : ∀ h' ∈ writtenHashes (runSave cu s' rest).2,
            h' ∉ s.global_output_hashes ∧ h' ≠ h := by
          intro h' hh'
          have := ihf h' hh'
          rw [hglob] at this
          simp only [List.mem_cons, not_or] at this
          exact ⟨this.2, this.1⟩
        constructor
        · simp only [runSave, hsv, writtenHashes]
          rw [List.nodup_cons]
          exact ⟨fun hc => (htail h hc).2 rfl, ihn⟩
        · intro h' hh'
          simp only [runSave, hsv, writtenHashes, List.mem_cons] at hh'
          rcases hh' with hh' | hh'
          · subst hh'; exact hnotg
          · exact (htail h' hh').1
      | skippedGlobal h =>
        have hst := save_not_written_state hsv (by intro f h'; simp)
        subst hst
        simp only [runSave, hsv, writtenHashes]
        exact ⟨ihn, ihf⟩
      | skippedFile f h =>
        have hst := save_not_written_state hsv (by intro f' h'; simp)
        subst hst
        simp only [runSave, hsv, writtenHashes]
        exact ⟨ihn, ihf⟩
      | noMatch =>
        have hst := save_not_written_state hsv (by intro f' h'; simp)
        subst hst
        simp only [runSave, hsv, writtenHashes]
        exact ⟨ihn, ihf⟩

theorem runSave_docsUnique (cu : String) (calls : List Call) :
    ∀ s : SaveState, docsUnique s → docsUnique (runSave cu s calls).1 := by
  induction calls with
  | nil => intro s hu; simpa [runSave] using hu
  | cons c rest ih =>
    obtain ⟨cmd, out, cv⟩ := c
    intro s hu
    rcases hsv : save_to_json cu cmd out cv s with e | ⟨s', r⟩
    · simpa [runSave, hsv] using hu
    · simp only [runSave, hsv]
      exact ih s' (save_docsUnique hsv hu)

theorem runSave_crossDoc (cu : String) (calls : List Call) :
    ∀ s : SaveState, hashesInGlobal s → crossDocUnique s →
      crossDocUnique (runSave cu s calls).1 := by
  induction calls with
  | nil => intro s _ hx; simpa [runSave] using hx
  | cons c rest ih =>
    obtain ⟨cmd, out, cv⟩ := c
    intro s hg hx
    rcases hsv : save_to_json cu cmd out cv s with e | ⟨s', r⟩
    · simpa [runSave, hsv] using hx
    · simp only [runSave, hsv]
      exact ih s' (save_hashesInGlobal hsv hg) (save_crossDocUnique hsv hg hx)

/-! ## Concrete fixtures used by the claim theorems -/

/-- A source root URL with the full version hierarchy:
`splitOnChar '/'` yields twelve segments, so indices 7, 8 and 10 exist. -/
def cuEx : String := "http://h/a/b/c/d/os-ver/rh-ver/x/ceph-ver/"

def cmdEx : String := "radosgw-admin bucket list"

def outEx : JVal := .jobj [("a", .jnum 1)]

def fEx : String := file_name_of "os-ver" "rh-ver" "ceph-ver" "bucket"

/-- A state whose destination document already holds the output (its
hash) while the global hash set does not know the hash — the
skipped-file situation of claim C1. -/
def sC1 : SaveState := ⟨[(fEx, ⟨"ceph-ver", [⟨cmdEx, outEx, dumpsSorted outEx⟩]⟩)], []⟩

/-- Two calls in one run carrying the same output under different
commands. -/
def callsEx : List Call := [(cmdEx, outEx, "v"), ("radosgw-admin user list", outEx, "v")]

/-- A log whose final line holds the command marker, so the version
line two lines below is absent. -/
def exMarker5 : String := "2024-01-01 host cephadm shell -- radosgw-admin bucket list\n"

/-- A well-formed version line: six whitespace tokens, the sixth
carrying enough dot-separated parts for the `[6:9]` slice. -/
def exVerLine : String := "t0 t1 t2 t3 t4 v.0.1.2.3.4.5.6.7.8\n"

def exMarker10 : String := "host cephadm shell -- radosgw-admin user list\n"

/-- A log in which a closing brace follows the marker before any
opening brace. -/
def exLines10 : List String := [exMarker10, "\x7dops\n", exVerLine]

def exMarker7 : String := "host cephadm shell -- radosgw-admin zone get\n"

/-- A log whose extraction fails with the empty-stack pop error. -/
def exLines7 : List String := [exMarker7, "x \x7d y\n", exVerLine]

def exMarker9 : String := "host cephadm shell -- radosgw-admin period get\n"

/-- A log whose captured candidate is the empty JSON object. -/
def exLines9 : List String := [exMarker9, "\x7b\x7d\n", exVerLine]

/-- The directory tree of claim C4: root → A, B (and a root log);
A → C (and a log); C holds a log of its own. -/
def listing4 (u : String) : List String :=
  if u = "http://r/" then ["A/", "B/", "root.log"]
  else if u = "http://r/A/" then ["C/", "a.log"]
  else if u = "http://r/B/" then ["b.log"]
  else if u = "http://r/A/C/" then ["c.log"]
  else []

/-! ## Claim theorems -/

/-- C1, counterexample: with the hash absent from the global set but
present in the destination document, `save_to_json` reports
skipped-file and returns the state *unchanged* — in particular the
global hash set still does not contain the hash, contradicting the
claim that the hash is added on this path. -/
theorem save_skipped_file_global_not_updated_cex :
    save_to_json cuEx cmdEx outEx "v" sC1 =
      .ok (sC1, .skippedFile fEx (dumpsSorted outEx)) ∧
    dumpsSorted outEx ∉ sC1.global_output_hashes :=
  ⟨rfl, by simp [sC1]⟩

/-- C1, amended: when the output's hash is not in the global hash set
but is already present among the destination document's existing
outputs entries, the call reports skipped-file and performs no write,
and it does *not* add the hash to the global hash set — the entire
state is returned unchanged. -/
theorem save_skipped_file_state_unchanged (cu cmd : String) (out : JVal) (cv : String)
    (s : SaveState) (osv rhel cvf sub : String)
    (hv : version_dirs cu = some (osv, rhel, cvf))
    (hm : re_search_radosgw cmd = some sub)
    (hg : dumpsSorted out ∉ s.global_output_hashes)
    (hf : 0 < countHash (docOutputs s (file_name_of osv rhel cvf sub)) (dumpsSorted out)) :
    save_to_json cu cmd out cv s =
      .ok (s, .skippedFile (file_name_of osv rhel cvf sub) (dumpsSorted out)) := by
  rcases hlook : dictGet s.files (file_name_of osv rhel cvf sub) with _ | d
  · rw [show docOutputs s (file_name_of osv rhel cvf sub) = [] by
      simp [docOutputs, hlook]] at hf
    simp [countHash] at hf
  · have hout : docOutputs s (file_name_of osv rhel cvf sub) = d.outputs := by
      simp [docOutputs, hlook]
    unfold save_to_json
    rw [hv]
    simp only []
    rw [hm]
    simp only []
    rw [hlook]
    simp only []
    rw [if_neg hg]
    rw [if_neg (by rw [countHash_pos_not_all (hout ▸ hf)]; simp)]

theorem save_skipped_file_state_unchanged_witness :
    version_dirs cuEx = some ("os-ver", "rh-ver", "ceph-ver") ∧
    re_search_radosgw cmdEx = some "bucket" ∧
    0 < countHash (docOutputs sC1 fEx) (dumpsSorted outEx) ∧
    save_to_json cuEx cmdEx outEx "v" sC1 =
      .ok (sC1, .skippedFile fEx (dumpsSorted outEx)) :=
  ⟨rfl, rfl, by decide,
    save_skipped_file_state_unchanged cuEx cmdEx outEx "v" sC1 "os-ver" "rh-ver" "ceph-ver"
      "bucket" rfl rfl (by simp [sC1]) (by decide)⟩

/-- C2: along any run of `save_to_json` calls, (a) per-document
uniqueness of `output_hash` values is preserved, (b) the hashes of the
entries written during the run are pairwise distinct (each output value,
identified by its canonical serialization, is persisted at most once
during the run), and (c) starting from an empty base directory no two
distinct destination documents ever share an `output_hash`. -/
theorem run_dedup_invariants (cu : String) (s : SaveState) (calls : List Call)
    (hu : docsUnique s) :
    docsUnique (runSave cu s calls).1 ∧
    (writtenHashes (runSave cu s calls).2).Nodup ∧
    (s.files = [] → crossDocUnique (runSave cu s calls).1) := by
  refine ⟨runSave_docsUnique cu calls s hu, (runSave_writes_fresh cu calls s).1, ?_⟩
  intro hempty
  apply runSave_crossDoc
  · intro p hp
    rw [hempty] at hp
    simp at hp
  · intro f f' hne e he
    exfalso
    simp [docOutputs, hempty, dictGet] at he

theorem run_dedup_invariants_witness :
    docsUnique (⟨[], []⟩ : SaveState) ∧
    (docsUnique (runSave cuEx ⟨[], []⟩ callsEx).1 ∧
     (writtenHashes (runSave cuEx ⟨[], []⟩ callsEx).2).Nodup ∧
     ((⟨[], []⟩ : SaveState).files = [] → crossDocUnique (runSave cuEx ⟨[], []⟩ callsEx).1)) :=
  ⟨by simp [docsUnique], run_dedup_invariants cuEx ⟨[], []⟩ callsEx (by simp [docsUnique])⟩

/-- C3: persisting the same (command, output) pair twice within a run
— starting from a state where the hash is in neither dedup structure
and the command matches the subcommand pattern — writes once, leaves
exactly one entry with that hash in the destination document, and the
second call performs no write, reporting skipped-global. -/
theorem save_to_json_idempotent (cu cmd : String) (out : JVal) (cv cv' : String)
    (s : SaveState) (osv rhel cvf sub : String)
    (hv : version_dirs cu = some (osv, rhel, cvf))
    (hm : re_search_radosgw cmd = some sub)
    (hg : dumpsSorted out ∉ s.global_output_hashes)
    (hf : countHash (docOutputs s (file_name_of osv rhel cvf sub)) (dumpsSorted out) = 0) :
    ∃ s₁ : SaveState,
      save_to_json cu cmd out cv s =
        .ok (s₁, .written (file_name_of osv rhel cvf sub) (dumpsSorted out)) ∧
      save_to_json cu cmd out cv' s₁ = .ok (s₁, .skippedGlobal (dumpsSorted out)) ∧
      countHash (docOutputs s₁ (file_name_of osv rhel cvf sub)) (dumpsSorted out) = 1 := by
  rcases hlook : dictGet s.files (file_name_of osv rhel cvf sub) with _ | d
  · have hout : docOutputs s (file_name_of osv rhel cvf sub) = [] := by
      simp [docOutputs, hlook]
    refine ⟨⟨assocSet s.files (file_name_of osv rhel cvf sub)
        ⟨cvf, [⟨cmd, out, dumpsSorted out⟩]⟩,
        dumpsSorted out :: s.global_output_hashes⟩, ?_, ?_, ?_⟩
    · unfold save_to_json
      rw [hv]
      simp only []
      rw [hm]
      simp only []
      rw [hlook]
      simp only []
      rw [if_neg hg]
      simp
    · unfold save_to_json
      rw [hv]
      simp only []
      rw [hm]
      simp only []
      rw [if_pos (List.mem_cons_self _ _)]
    · rw [docOutputs_write_self]
      simp [countHash]
  · have hout : docOutputs s (file_name_of osv rhel cvf sub) = d.outputs := by
      simp [docOutputs, hlook]
    refine ⟨⟨assocSet s.files (file_name_of osv rhel cvf sub)
        ⟨d.ceph_version, d.outputs ++ [⟨cmd, out, dumpsSorted out⟩]⟩,
        dumpsSorted out :: s.global_output_hashes⟩, ?_, ?_, ?_⟩
    · unfold save_to_json
      rw [hv]
      simp only []
      rw [hm]
      simp only []
      rw [hlook]
      simp only []
      rw [if_neg hg]
      rw [if_pos (countHash_zero_all_bne (hout ▸ hf))]
    · unfold save_to_json
      rw [hv]
      simp only []
      rw [hm]
      simp only []
      rw [if_pos (List.mem_cons_self _ _)]
    · rw [docOutputs_write_self]
      simp only [countHash_append]
      rw [hout] at hf
      rw [hf]
      simp [countHash]

theorem save_to_json_idempotent_witness :
    version_dirs cuEx = some ("os-ver", "rh-ver", "ceph-ver") ∧
    re_search_radosgw cmdEx = some "bucket" ∧
    (∃ s₁ : SaveState,
      save_to_json cuEx cmdEx outEx "v" ⟨[], []⟩ =
        .ok (s₁, .written fEx (dumpsSorted outEx)) ∧
      save_to_json cuEx cmdEx outEx "w" s₁ = .ok (s₁, .skippedGlobal (dumpsSorted outEx)) ∧
      countHash (docOutputs s₁ fEx) (dumpsSorted outEx) = 1) :=
  ⟨rfl, rfl,
    save_to_json_idempotent cuEx cmdEx outEx "v" "w" ⟨[], []⟩ "os-ver" "rh-ver" "ceph-ver"
      "bucket" rfl rfl (by simp) rfl⟩

/-- C4, counterexample: on the tree root → A, B with A → C,
`fetch_log_links` does not collect the log directly under C (it
collects A's own logs but never fetches C's listing), contradicting
the claim that logs under C are collected. -/
theorem fetch_second_level_logs_missing_cex :
    "http://r/A/C/c.log" ∉ allLogs (fetch_log_links listing4 "http://r/" []) ∧
    "http://r/A/a.log" ∈ allLogs (fetch_log_links listing4 "http://r/" []) := by
  decide

/-- C4, amended: on the tree root → A, B with A → C, traversal collects
exactly the logs directly under root, under A and under B; the
second-level directory C is never fetched (no dictionary entry is
created for it), so its logs are not collected. -/
theorem fetch_log_links_shallow_cutoff :
    allLogs (fetch_log_links listing4 "http://r/" []) =
      ["http://r/root.log", "http://r/A/a.log", "http://r/B/b.log"] ∧
    dictGet (fetch_log_links listing4 "http://r/" []) "http://r/A/C/" = none :=
  ⟨rfl, rfl⟩

/-- C5: a log whose final line holds the command marker makes
`lines[i + 2]` raise an uncaught `IndexError`: `process_log_file`
propagates it (its only handler catches `requests.RequestException`),
so the whole run aborts instead of continuing with the version absent
— the behaviour the claim (and the spec) require is not implemented. -/
theorem version_line_index_error_uncaught :
    process_log_file [exMarker5] [] = (⟨true⟩, .error indexErrMsg) := rfl

/-- C6, counterexample: with a source URL holding too few path segments
for the version hierarchy, `save_to_json` raises an uncaught
`IndexError` instead of falling back to writing under the base
directory — no fallback path exists in the code. -/
theorem short_url_no_fallback_cex :
    save_to_json "http://x/" "radosgw-admin bucket list" (JVal.jobj []) "v" ⟨[], []⟩ =
      .error indexErrMsg := rfl

/-- C6, amended: whenever the source URL splits into at most ten
segments (so index 10 is out of range), `save_to_json` raises an
uncaught `IndexError` — it never writes a document, under the base
directory or anywhere else. -/
theorem save_to_json_short_url_raises (cu cmd : String) (out : JVal) (cv : String)
    (s : SaveState) (hlen : (splitOnChar '/' cu).length ≤ 10) :
    save_to_json cu cmd out cv s = .error indexErrMsg := by
  have h10 : (splitOnChar '/' cu).get? 10 = none := by
    rw [List.get?_eq_none]
    exact hlen
  have hvd : version_dirs cu = none := by
    unfold version_dirs
    simp only []
    rw [h10]
    rcases (splitOnChar '/' cu).get? 7 with _ | a <;>
      rcases (splitOnChar '/' cu).get? 8 with _ | b <;> simp
  unfold save_to_json
  rw [hvd]

theorem save_to_json_short_url_raises_witness :
    (splitOnChar '/' "http://x/").length ≤ 10 ∧
    save_to_json "http://x/" "c" JVal.jnull "v" ⟨[], []⟩ = .error indexErrMsg :=
  ⟨by decide, save_to_json_short_url_raises "http://x/" "c" JVal.jnull "v" ⟨[], []⟩ (by decide)⟩

/-- C7, counterexample: an extraction error (the empty-stack pop) after
the fetched content was written to the temporary file exits
`process_log_file` with the temporary file still present
(`tempExists = true`), contradicting the claim that the file is removed
on every exit path. -/
theorem temp_file_not_removed_on_error_cex :
    process_log_file exLines7 [] = (⟨true⟩, .error popErrMsg) := rfl

/-- C7, amended: the temporary file is removed exactly on the normal
exit path — it is gone after the call if and only if extraction raised
no exception; on an extraction error the exception propagates first and
the file remains. -/
theorem temp_file_removed_iff_ok (lines pc : List String) :
    (process_log_file lines pc).1.tempExists = false ↔
      ∃ r, (process_log_file lines pc).2 = Except.ok r := by
  rcases h : extract_records lines pc with e | r <;> simp [process_log_file, h]

/-- C8: the normalization of a captured candidate replaces single
quotes with double quotes and `True` with `true` (and `False` with
`false`) and trims whitespace, so the candidate consisting of `'key':
True` in braces becomes exactly the canonical text and parses to the
object mapping "key" to `true`. -/
theorem normalization_parses_quoted_true :
    clean "\x7b\x27key\x27: True\x7d" = "\x7b\"key\": true\x7d" ∧
    json_loads (clean "\x7b\x27key\x27: True\x7d") =
      some (JVal.jobj [("key", JVal.jbool true)]) :=
  ⟨rfl, rfl⟩

/-- C9: when the candidate captured for a marker parses successfully
but to a Python-falsy value (such as the empty object), the marker
iteration emits no record — `save_to_json` is not reached — and the
command is not added to the processed-command set, exactly as on a
parse failure. -/
theorem falsy_output_emits_no_record (lines : List String) (i : Nat) (pc : List String)
    (v : String) (hv : version_from lines i = .ok v)
    (hpc : command_of (lines.getD i "") ∉ pc)
    (c : String) (hscan : scan_lines (lines.drop (i + 1)) [] "" = .ok c)
    (hc : c ≠ "")
    (out : JVal) (hparse : json_loads (clean c) = some out)
    (hfalsy : pythonTruthy out = false) :
    marker_step lines i pc = .ok (none, pc) := by
  unfold marker_step
  rw [hv]
  simp only []
  rw [if_neg hpc, hscan]
  simp only []
  rw [if_pos hc, hparse]
  simp only []
  rw [hfalsy]
  simp

theorem falsy_output_emits_no_record_witness :
    version_from exLines9 0 = .ok "5.6.7" ∧
    scan_lines (exLines9.drop 1) [] "" = .ok "\x7b\x7d" ∧
    json_loads (clean "\x7b\x7d") = some (JVal.jobj []) ∧
    pythonTruthy (JVal.jobj []) = false ∧
    marker_step exLines9 0 [] = .ok (none, []) :=
  ⟨rfl, rfl, rfl, rfl,
    falsy_output_emits_no_record exLines9 0 [] "5.6.7" rfl (by simp) "\x7b\x7d" rfl
      (by decide) (JVal.jobj []) rfl rfl⟩

/-- C10: a log text in which a closing brace follows the marker line
before any opening brace drives the brace scanner into `stack.pop()` on
an empty stack; the resulting `IndexError` propagates uncaught out of
`process_log_file` (with the temporary file left behind), so extraction
is not total over log texts containing a marker. -/
theorem brace_scanner_pop_empty_stack_error :
    process_log_file exLines10 [] = (⟨true⟩, .error popErrMsg) := rfl
